import Mathlib

/-!
Verification of the anvil scaffold engine against its specification.

The development shallowly embeds the scaffold engine of the anvil
repository: the env-file update steps (env.write, env.copy), the step
executor, the scaffold manager pre-flight and db-suffix seeding phases,
the binary step output capture, and the template resolver.  File
contents are modelled as lists of characters; splitting on a newline
character mirrors the Go strings.Split calls of the source.  Components
of the repository whose implementation files are not available
(ScaffoldContext accessors, the db.create suffix resolution, the
condition evaluator primitives, the template resolver) are modelled from
the specification and marked as such in their doc comments.
-/

namespace Anvil

/-! ## Lines of an env file

Go code in env_write.go and env_copy.go manipulates file content through
strings.Split(content, "\n") and strings.Join(lines, "\n").  splitNL and
joinNL are the corresponding operations on character lists. -/

/-- Split a character list at every newline, mirroring Go
strings.Split(content, "\n"): the result always has one piece more than
the number of newlines, and an empty input yields one empty piece. -/
def splitNL : List Char → List (List Char)
  | [] => [[]]
  | c :: rest =>
    if c = '\n' then [] :: splitNL rest
    else (splitNL rest).modifyHead (fun p => c :: p)

/-- Join pieces with a newline between consecutive pieces, mirroring Go
strings.Join(lines, "\n"). -/
def joinNL : List (List Char) → List Char
  | [] => []
  | [p] => p
  | p :: q :: ps => p ++ '\n' :: joinNL (q :: ps)

/-- Drop the final empty piece produced by splitting a newline-terminated
content; what remains is the list of textual lines of the file. -/
def dropTrailingEmpty (ps : List (List Char)) : List (List Char) :=
  if ps.getLast? = some [] then ps.dropLast else ps

/-- The textual lines of a file content: split pieces without the empty
remainder that follows a final newline.  An empty file has no lines. -/
def fileLines (cs : List Char) : List (List Char) :=
  dropTrailingEmpty (splitNL cs)

/-- Append a newline unless the content already ends with one; mirrors
the strings.HasSuffix(content, "\n") checks in env_write.go and
env_copy.go. -/
def ensureNL (cs : List Char) : List Char :=
  if cs.getLast? = some '\n' then cs else cs ++ ['\n']

/-- A line is replaced when it starts with the key followed by an equals
sign or by a space; mirrors the strings.HasPrefix pair in env_write.go
line 98 and env_copy.go line 150. -/
def matchesKey (key line : List Char) : Bool :=
  (key ++ ['=']).isPrefixOf line || (key ++ [' ']).isPrefixOf line

/-- The line written for a key and a value. -/
def kvLine (key value : List Char) : List Char :=
  key ++ '=' :: value

/-- Index of the first line matching the key, if any. -/
def firstMatchIdx (key : List Char) : List (List Char) → Option Nat
  | [] => none
  | l :: ls =>
    if matchesKey key l then some 0 else (firstMatchIdx key ls).map (fun i => i + 1)

/-- Replace the first piece matching the key with key=value, mirroring
the for-loop with break in env_write.go lines 97-103; none when no piece
matched. -/
def replaceFirst (key value : List Char) : List (List Char) → Option (List (List Char))
  | [] => none
  | l :: ls =>
    if matchesKey key l then some ((key ++ '=' :: value) :: ls)
    else (replaceFirst key value ls).map (fun ps => l :: ps)

/-- Content transformation of EnvWriteStep.Run for an existing target
file, translated from env_write.go lines 90-115: split on newlines,
replace the first matching line in place, rejoin and guarantee a
trailing newline; when no line matched, newline-terminate the old
content and append one key=value line. -/
def envWriteCore (key value content : List Char) : List Char :=
  match replaceFirst key value (splitNL content) with
  | some ps => ensureNL (joinNL ps)
  | none => ensureNL content ++ key ++ '=' :: value ++ ['\n']

/-- String-level wrapper of envWriteCore. -/
def envWriteExisting (key value content : String) : String :=
  ⟨envWriteCore key.data value.data content.data⟩

/-- Content update of env_copy.go updateEnvContent (lines 141-170): the
same transformation as envWriteCore except that a zero-length content is
replaced by the single key=value line directly. -/
def updateEnvContent (key value content : List Char) : List Char :=
  if content = [] then key ++ '=' :: value ++ ['\n']
  else envWriteCore key value content

/-- No newline occurs in the given characters. -/
def noNL (cs : List Char) : Bool :=
  !(cs.contains '\n')

/-- A well-formed env key: free of the equals sign, the space and the
newline, as produced by env-file parsing. -/
def plainKey (k : List Char) : Bool :=
  !(k.contains '=') && !(k.contains ' ') && noNL k

/-- Lookup in a parsed source env file, modelled as an association
list. -/
def lookupEnv (src : List (List Char × List Char)) (k : List Char) : Option (List Char) :=
  (src.find? (fun p => p.1 == k)).map Prod.snd

/-- The requested keys absent from the source, in request order; mirrors
the collection loop of env_copy.go lines 71-77. -/
def missingKeys (src : List (List Char × List Char)) (keys : List (List Char)) : List (List Char) :=
  keys.filter (fun k => (lookupEnv src k).isNone)

/-- Join with a comma and a space, mirroring strings.Join(missingKeys,
", ") in env_copy.go line 80. -/
def joinCommaSp : List (List Char) → List Char
  | [] => []
  | [k] => k
  | k :: l :: ks => k ++ ',' :: ' ' :: joinCommaSp (l :: ks)

/-- Write every collected key with its source value into the target
content, one updateEnvContent per key; mirrors the write loop of
env_copy.go lines 103-105. -/
def envCopyCollect (src : List (List Char × List Char)) (keys : List (List Char))
    (target : List Char) : List Char :=
  keys.foldl
    (fun c k =>
      match lookupEnv src k with
      | some v => updateEnvContent k v c
      | none => c)
    target

/-- Outcome of EnvCopyStep.Run on the target content, translated from
env_copy.go lines 68-105: all requested keys are resolved first and a
single missing key aborts with the listing error before the target is
touched. -/
def envCopyRun (src : List (List Char × List Char)) (keys : List (List Char))
    (target : List Char) : Except (List Char) (List Char) :=
  if missingKeys src keys = [] then .ok (envCopyCollect src keys target)
  else .error (("keys not found in source: ").data ++ joinCommaSp (missingKeys src keys))

/-- The target file content after the step ran: unchanged on error, since
env_copy.go returns at line 80 before opening the target. -/
def envCopyTargetAfter (src : List (List Char × List Char)) (keys : List (List Char))
    (target : List Char) : List Char :=
  match envCopyRun src keys target with
  | .ok c => c
  | .error _ => target

/-! ## strings.TrimSpace, as called by BinaryStep.Run -/

/-- Whitespace predicate of Go unicode.IsSpace restricted to the Latin-1
range (tab, newline, vertical tab, form feed, carriage return, space,
next line, no-break space); the source calls strings.TrimSpace on
captured process output. -/
def goIsSpace (c : Char) : Bool :=
  [9, 10, 11, 12, 13, 32, 133, 160].contains c.toNat

/-- Drop leading whitespace. -/
def goTrimLeft (cs : List Char) : List Char :=
  cs.dropWhile goIsSpace

/-- Drop trailing whitespace. -/
def goTrimRight (cs : List Char) : List Char :=
  (cs.reverse.dropWhile goIsSpace).reverse

/-- Go strings.TrimSpace: remove leading and trailing whitespace. -/
def goTrimSpace (s : String) : String :=
  ⟨goTrimRight (goTrimLeft s.data)⟩

/-! ## Condition values and step configuration -/

/-- A condition-map value as it arrives from YAML: a single string or a
list of strings; mirrors the string and list-of-interface cases handled
in the manager check helpers. -/
inductive CondVal where
  | one (s : String)
  | many (ss : List String)
deriving DecidableEq, Repr

/-- The items named by a condition value. -/
def condValItems : CondVal → List String
  | .one s => [s]
  | .many ss => ss

/-- Declarative step configuration, the subset of config.StepConfig
fields read by the embedded steps.  The condition map is carried so that
ignoring it can be stated. -/
structure StepConfig where
  name : String
  args : List String
  command : String
  condition : List (String × CondVal)
  key : String
  keys : List String
  value : String
  storeAs : String
  file : String
  source : String
  sourceFile : String

/-! ## ScaffoldContext -/

/-- The mutable execution context threaded through steps, with the fields
of types.ScaffoldContext (the lock is not modelled: execution is
sequential). -/
structure ScaffoldContext where
  worktreePath : String
  branch : String
  repoName : String
  siteName : String
  preset : String
  path : String
  repoPath : String
  dbSuffix : String
  vars : List (String × String)
deriving DecidableEq, Repr

/-- Store a context variable; later bindings shadow earlier ones as in a
map assignment. -/
def ScaffoldContext.setVar (ctx : ScaffoldContext) (key value : String) : ScaffoldContext :=
  { ctx with vars := (key, value) :: ctx.vars }

/-- Read a context variable, empty string when absent, as a Go map read
returns the zero value. -/
def ScaffoldContext.getVar (ctx : ScaffoldContext) (key : String) : String :=
  (((ctx.vars.find? (fun p => p.1 == key)).map Prod.snd).getD "")

/-- Modelled from the spec: ScaffoldContext.SetDbSuffix of the types
package is not under src (only an early design snippet, tests and
callers are).  Spec section 4.1: a second non-empty write during one
invocation is rejected and the existing value is kept; an empty write is
a no-op. -/
def ScaffoldContext.setDbSuffix (ctx : ScaffoldContext) (suffix : String) : ScaffoldContext :=
  if suffix = "" then ctx
  else if ctx.dbSuffix ≠ "" then ctx
  else { ctx with dbSuffix := suffix }

/-- Read the database suffix. -/
def ScaffoldContext.getDbSuffix (ctx : ScaffoldContext) : String :=
  ctx.dbSuffix

/-- Modelled from the spec: the suffix resolution of DbCreateStep (spec
section 4.5.7 step 2); steps/db.go is not under src.  A non-empty
context suffix is reused, otherwise the freshly generated suffix is
assigned through setDbSuffix. -/
def dbCreateResolveSuffix (ctx : ScaffoldContext) (generated : String) :
    ScaffoldContext × String :=
  if ctx.getDbSuffix ≠ "" then (ctx, ctx.getDbSuffix)
  else (ctx.setDbSuffix generated, generated)

/-- Output capture of BinaryStep.Run, translated from binary.go lines
98-103: with store_as set, the combined output is passed through
strings.TrimSpace and stored as a context variable. -/
def binaryStoreOutput (storeAs output : String) (ctx : ScaffoldContext) : ScaffoldContext :=
  if storeAs = "" then ctx else ctx.setVar storeAs (goTrimSpace output)

/-! ## The env step variants and their condition methods -/

/-- EnvWriteStep fields, from env_write.go lines 32-37. -/
structure EnvWriteStep where
  name : String
  key : String
  value : String
  file : String

/-- Factory of env_write.go lines 39-46; the configured condition map is
not retained. -/
def NewEnvWriteStep (cfg : StepConfig) : EnvWriteStep :=
  { name := "env.write", key := cfg.key, value := cfg.value, file := cfg.file }

/-- EnvWriteStep.Condition, env_write.go lines 52-54. -/
def EnvWriteStep.condition (_s : EnvWriteStep) (_ctx : ScaffoldContext) : Bool :=
  true

/-- EnvCopyStep fields, from env_copy.go lines 14-20. -/
structure EnvCopyStep where
  name : String
  source : String
  sourceFile : String
  keys : List String
  file : String

/-- Factory of env_copy.go lines 22-35: a single key falls back into the
keys list; the configured condition map is not retained. -/
def NewEnvCopyStep (cfg : StepConfig) : EnvCopyStep :=
  let keys := if cfg.keys = [] ∧ cfg.key ≠ "" then [cfg.key] else cfg.keys
  { name := "env.copy", source := cfg.source, sourceFile := cfg.sourceFile,
    keys := keys, file := cfg.file }

/-- EnvCopyStep.Condition, env_copy.go lines 41-43. -/
def EnvCopyStep.condition (_s : EnvCopyStep) (_ctx : ScaffoldContext) : Bool :=
  true

/-- EnvReadStep fields, from env_read.go. -/
structure EnvReadStep where
  name : String
  key : String
  storeAs : String
  file : String

/-- Factory of env_read.go; the configured condition map is not
retained. -/
def NewEnvReadStep (cfg : StepConfig) : EnvReadStep :=
  { name := "env.read", key := cfg.key, storeAs := cfg.storeAs, file := cfg.file }

/-- EnvReadStep.Condition, always true. -/
def EnvReadStep.condition (_s : EnvReadStep) (_ctx : ScaffoldContext) : Bool :=
  true

/-! ## Template resolver -/

/-- Snapshot lookup for template rendering. -/
def lookupVar (snap : List (String × String)) (nm : String) : Option String :=
  ((snap.find? (fun p => p.1 == nm)).map Prod.snd)

/-- Scan forward to the closing double brace, returning the enclosed
characters and the remainder. -/
def splitClose : List Char → Option (List Char × List Char)
  | [] => none
  | c :: rest =>
    if c = '}' ∧ rest.head? = some '}' then some ([], rest.tail)
    else (splitClose rest).map (fun p => (c :: p.1, p.2))

/-- Drop leading spaces. -/
def dropSpaces (cs : List Char) : List Char :=
  cs.dropWhile (fun c => c = ' ')

/-- Parse a dotted identifier inside an action, tolerant of surrounding
whitespace as Go text-template is. -/
def parseIdentDot (inner : List Char) : Option String :=
  match dropSpaces inner with
  | '.' :: rest =>
    let nm := rest.takeWhile (fun c => !(c = ' '))
    if dropSpaces (rest.drop nm.length) = [] then some ⟨nm⟩ else none
  | _ => none

/-- Modelled from the spec: the template resolver (spec section 4.2) over
Go text-template semantics; scaffold/template/template.go is not under
src.  Literal characters are copied; a double open brace starts an
action that must name a snapshot key, and a missing key or malformed
action fails.  Fuel bounds the recursion and is always sufficient when
set to the input length. -/
def renderAux (snap : List (String × String)) : Nat → List Char → Except String (List Char)
  | _, [] => .ok []
  | 0, _ :: _ => .error "template rendering interrupted"
  | Nat.succ n, c :: rest =>
    if c = '{' ∧ rest.head? = some '{' then
      match splitClose rest.tail with
      | none => .error "invalid template"
      | some (inner, rest2) =>
        match parseIdentDot inner with
        | none => .error "invalid template"
        | some nm =>
          match lookupVar snap nm with
          | none => .error ("template execution failed: unknown key " ++ nm)
          | some v => (renderAux snap n rest2).map (fun t => v.data ++ t)
    else (renderAux snap n rest).map (fun t => c :: t)

/-- Whether a double open brace occurs anywhere in the characters. -/
def hasOpenPair : List Char → Bool
  | [] => false
  | c :: rest => (decide (c = '{' ∧ rest.head? = some '{')) || hasOpenPair rest

/-- Render a template string over a snapshot. -/
def render (s : String) (snap : List (String × String)) : Except String String :=
  (renderAux snap s.data.length s.data).map (fun cs => ⟨cs⟩)

/-! ## Step executor -/

/-- Per-step record retained by the executor, from executor.go lines
10-14: the step (represented here by its name), an optional error and a
skipped flag. -/
structure ExecutionResult where
  stepName : String
  error : Option String
  skipped : Bool
deriving DecidableEq, Repr

/-- Executor options, from types.StepOptions. -/
structure StepOptions where
  dryRun : Bool
  verbose : Bool
  quiet : Bool
deriving DecidableEq, Repr

/-- A step as the executor sees it: name, enabled flag (IsEnabled with
default true), condition and run over a context of type sigma. -/
structure ScaffoldStep (σ : Type) where
  name : String
  enabled : Bool
  condition : σ → Bool
  run : σ → Except String σ

/-- One step execution, translated from executor.go lines 47-112:
disabled steps and false conditions record a skip; dry-run records a
plain result without invoking run; a run error is recorded and returned
wrapped with the step name. -/
def executeStep (opts : StepOptions) (s : ScaffoldStep σ) (ctx : σ) :
    ExecutionResult × Except String σ :=
  if s.enabled = false then
    ({ stepName := s.name, error := none, skipped := true }, .ok ctx)
  else if s.condition ctx then
    if opts.dryRun then
      ({ stepName := s.name, error := none, skipped := false }, .ok ctx)
    else
      match s.run ctx with
      | .error e =>
        ({ stepName := s.name, error := some e, skipped := false },
         .error ("step " ++ s.name ++ " failed: " ++ e))
      | .ok ctx2 =>
        ({ stepName := s.name, error := none, skipped := false }, .ok ctx2)
  else
    ({ stepName := s.name, error := none, skipped := true }, .ok ctx)

/-- Sequential execution of StepExecutor.Execute, executor.go lines
33-45: steps run in declared order and the first error halts the loop;
the results retained so far are kept. -/
def executeSteps (opts : StepOptions) : List (ScaffoldStep σ) → σ →
    List ExecutionResult × Except String σ
  | [], ctx => ([], .ok ctx)
  | s :: rest, ctx =>
    match executeStep opts s ctx with
    | (r, .ok ctx2) =>
      let res := executeSteps opts rest ctx2
      (r :: res.1, res.2)
    | (r, .error e) => ([r], .error e)

/-! ## Pre-flight checks and the scaffold manager -/

/-- Ambient world the pre-flight checks consult: set environment
variables, commands resolvable in PATH and files present in the
worktree. -/
structure World where
  envVars : List String
  commands : List String
  files : List String

/-- The items of a condition value missing from the given present list,
in declaration order; mirrors the append loops of checkMissingEnvVars,
checkMissingCommands and checkMissingFiles in the manager. -/
def missingFrom (present : List String) (v : CondVal) : List String :=
  (condValItems v).filter (fun s => !(present.contains s))

/-- Pre-flight condition map restricted to the three kinds the grouped
diagnostic reports, mirroring the conditions map lookups of
generatePreFlightError. -/
structure PreFlight where
  envExists : Option CondVal
  commandExists : Option CondVal
  fileExists : Option CondVal

/-- One grouped diagnostic part, mirroring the Sprintf calls of
generatePreFlightError; empty when nothing is missing. -/
def groupMsg (header : String) (missing : List String) : List String :=
  if missing = [] then []
  else [header ++ "\n  - " ++ String.intercalate "\n  - " missing]

/-- The missing environment variables of a pre-flight map. -/
def preFlightMissingEnv (w : World) (pf : PreFlight) : List String :=
  match pf.envExists with
  | some v => missingFrom w.envVars v
  | none => []

/-- The missing commands of a pre-flight map. -/
def preFlightMissingCommands (w : World) (pf : PreFlight) : List String :=
  match pf.commandExists with
  | some v => missingFrom w.commands v
  | none => []

/-- The missing files of a pre-flight map. -/
def preFlightMissingFiles (w : World) (pf : PreFlight) : List String :=
  match pf.fileExists with
  | some v => missingFrom w.files v
  | none => []

/-- Grouped pre-flight diagnostic, translated from
ScaffoldManager.generatePreFlightError: the failing items are listed by
kind under their headers, joined by blank lines inside the fixed frame
message. -/
def generatePreFlightError (w : World) (pf : PreFlight) : String :=
  let parts :=
    groupMsg "Missing environment variables:" (preFlightMissingEnv w pf) ++
    groupMsg "Missing commands:" (preFlightMissingCommands w pf) ++
    groupMsg "Missing files:" (preFlightMissingFiles w pf)
  if parts ≠ [] then
    "pre-flight checks failed:\n\n" ++ String.intercalate "\n\n" parts ++
      "\n\nPlease resolve these issues and try again"
  else "pre-flight checks failed"

/-- Modelled from the spec: the condition evaluator (spec section 4.3)
for the three pre-flight primitives; the types-package evaluator is not
under src.  Every named environment variable, command and file must be
present; multiple keys conjoin. -/
def evalPreFlight (w : World) (pf : PreFlight) : Bool :=
  (match pf.envExists with
   | some v => (condValItems v).all (fun s => w.envVars.contains s)
   | none => true) &&
  (match pf.commandExists with
   | some v => (condValItems v).all (fun s => w.commands.contains s)
   | none => true) &&
  (match pf.fileExists with
   | some v => (condValItems v).all (fun s => w.files.contains s)
   | none => true)

/-- The filesystem state the scaffold manager itself reads and writes:
the legacy db_suffix entry of the project anvil.yaml and the db_suffix
of the worktree-local .anvil.local (empty string for absent). -/
structure LocalFS where
  anvilYamlExists : Bool
  anvilYamlDbSuffix : String
  localDbSuffix : String
deriving DecidableEq, Repr

/-- Legacy migration, translated from config/migration.go
MigrateDbSuffixToLocal: a non-empty db_suffix in anvil.yaml moves into
the local state and is removed from the yaml; otherwise nothing
changes. -/
def migrateDbSuffixToLocal (fs : LocalFS) : LocalFS :=
  if fs.anvilYamlExists = false then fs
  else if fs.anvilYamlDbSuffix = "" then fs
  else { fs with anvilYamlDbSuffix := "", localDbSuffix := fs.anvilYamlDbSuffix }

/-- Local-state write, translated from config/local_state.go
WriteLocalState: only a non-empty suffix is merged into the file. -/
def writeLocalState (fs : LocalFS) (suffix : String) : LocalFS :=
  if suffix = "" then fs else { fs with localDbSuffix := suffix }

/-- The db-suffix seeding phase of ScaffoldManager.RunScaffold (the
manager source lines 362-385): outside dry-run the legacy migration
runs first; an empty local suffix is replaced by the generated one,
set on the context and, outside dry-run, persisted; a present local
suffix only seeds the context. -/
def seedSuffix (dryRun : Bool) (generated : String) (fs : LocalFS)
    (ctx : ScaffoldContext) : ScaffoldContext × LocalFS :=
  let fs1 := if dryRun then fs else migrateDbSuffixToLocal fs
  if fs1.localDbSuffix = "" then
    (ctx.setDbSuffix generated,
     if dryRun then fs1 else writeLocalState fs1 generated)
  else (ctx.setDbSuffix fs1.localDbSuffix, fs1)

/-- ScaffoldManager.RunScaffold, translated from the manager source lines
359-412: seed the db suffix, run the pre-flight checks and abort with
the grouped diagnostic on failure, and only then build and execute the
step list.  The step list argument stands for the steps
GetStepsForWorktree would assemble. -/
def runScaffold (dryRun verbose quiet : Bool) (generated : String)
    (pf : Option PreFlight) (w : World) (steps : List (ScaffoldStep ScaffoldContext))
    (fs : LocalFS) (ctx0 : ScaffoldContext) :
    LocalFS × Except String (List ExecutionResult × ScaffoldContext) :=
  let seeded := seedSuffix dryRun generated fs ctx0
  let ctx1 := seeded.1
  let fs2 := seeded.2
  let opts : StepOptions := { dryRun := dryRun, verbose := verbose, quiet := quiet }
  match pf with
  | some p =>
    if evalPreFlight w p then
      let res := executeSteps opts steps ctx1
      (fs2, res.2.map (fun c => (res.1, c)))
    else (fs2, .error (generatePreFlightError w p))
  | none =>
    let res := executeSteps opts steps ctx1
    (fs2, res.2.map (fun c => (res.1, c)))

/-! ## Concrete fixtures used by witnesses and counterexamples -/

/-- A context whose db suffix is already set. -/
def demoCtx : ScaffoldContext :=
  { worktreePath := "/projects/myapp/feature-auth", branch := "feature-auth",
    repoName := "myapp", siteName := "myapp", preset := "laravel",
    path := "feature-auth", repoPath := "myapp", dbSuffix := "swift_runner", vars := [] }

/-- A fresh context with no suffix and no variables. -/
def demoCtx0 : ScaffoldContext :=
  { worktreePath := "/projects/myapp/feature-auth", branch := "feature-auth",
    repoName := "myapp", siteName := "myapp", preset := "laravel",
    path := "feature-auth", repoPath := "myapp", dbSuffix := "", vars := [] }

/-- Dry-run executor options. -/
def demoOptsDry : StepOptions :=
  { dryRun := true, verbose := false, quiet := false }

/-- Real-run executor options. -/
def demoOptsReal : StepOptions :=
  { dryRun := false, verbose := false, quiet := false }

/-- A step over a counter context whose run succeeds. -/
def demoOk : ScaffoldStep Nat :=
  { name := "one", enabled := true, condition := fun _ => true, run := fun n => .ok (n + 1) }

/-- A step whose run fails. -/
def demoFail : ScaffoldStep Nat :=
  { name := "two", enabled := true, condition := fun _ => true, run := fun _ => .error "boom" }

/-- A step placed after the failing one. -/
def demoNever : ScaffoldStep Nat :=
  { name := "three", enabled := true, condition := fun _ => true, run := fun n => .ok n }

/-- A disabled step named gate. -/
def demoDisabledGate : ScaffoldStep Nat :=
  { name := "gate", enabled := false, condition := fun _ => true, run := fun n => .ok n }

/-- An enabled step named gate whose condition is false. -/
def demoCondGate : ScaffoldStep Nat :=
  { name := "gate", enabled := true, condition := fun _ => false, run := fun n => .ok n }

/-- A world where only git is installed. -/
def demoWorld : World :=
  { envVars := [], commands := ["git"], files := [] }

/-- A pre-flight map expecting two env vars and the op command. -/
def demoPreFlight : PreFlight :=
  { envExists := some (.many ["OP_VAULT", "OP_ITEM"]), commandExists := some (.one "op"),
    fileExists := none }

/-- A local filesystem state with no suffix anywhere. -/
def demoFS : LocalFS :=
  { anvilYamlExists := true, anvilYamlDbSuffix := "", localDbSuffix := "" }

/-! ## Executor lemmas -/

/-- A step whose execution reports success recorded no error. -/
theorem executeStep_ok_error_none {σ : Type} (opts : StepOptions) (s : ScaffoldStep σ)
    (ctx ctx2 : σ) (h : (executeStep opts s ctx).2 = .ok ctx2) :
    (executeStep opts s ctx).1.error = none := by
  unfold executeStep at h ⊢
  by_cases h1 : s.enabled = false
  · simp [h1]
  · by_cases h2 : s.condition ctx
    · by_cases h3 : opts.dryRun
      · simp [h1, h2, h3]
      · cases hr : s.run ctx with
        | error e => simp [h1, h2, h3, hr] at h
        | ok c => simp [h1, h2, h3, hr]
    · simp [h1, h2]

/-- A step whose execution reports an error recorded that error, and the
returned message wraps it with the step name. -/
theorem executeStep_error_elim {σ : Type} (opts : StepOptions) (s : ScaffoldStep σ)
    (ctx : σ) (m : String) (h : (executeStep opts s ctx).2 = .error m) :
    ∃ e, s.run ctx = .error e ∧
      (executeStep opts s ctx).1 =
        { stepName := s.name, error := some e, skipped := false } ∧
      m = "step " ++ s.name ++ " failed: " ++ e := by
  unfold executeStep at h ⊢
  by_cases h1 : s.enabled = false
  · simp [h1] at h
  · by_cases h2 : s.condition ctx
    · by_cases h3 : opts.dryRun
      · simp [h1, h2, h3] at h
      · cases hr : s.run ctx with
        | error e =>
          refine ⟨e, rfl, ?_, ?_⟩
          · simp [h1, h2, h3, hr]
          · simp [h1, h2, h3, hr] at h
            exact h.symm
        | ok c => simp [h1, h2, h3, hr] at h
    · simp [h1, h2] at h

/-- C3: when some step run fails, the executor halts: the retained result
vector is the successful or skipped records of the earlier steps followed
by exactly one failed record, the returned error wraps the failing step
name, and executing only the attempted prefix of the step list yields the
identical outcome, so no later step run is ever invoked. -/
theorem executor_halts_on_failure {σ : Type} (opts : StepOptions)
    (steps : List (ScaffoldStep σ)) (ctx : σ) (msg : String)
    (h : (executeSteps opts steps ctx).2 = .error msg) :
    ∃ pre fail,
      (executeSteps opts steps ctx).1 = pre ++ [fail] ∧
      (∀ r ∈ pre, r.error = none) ∧
      (∃ e, fail.error = some e ∧ msg = "step " ++ fail.stepName ++ " failed: " ++ e) ∧
      executeSteps opts (steps.take (pre.length + 1)) ctx = (pre ++ [fail], .error msg) := by
  induction steps generalizing ctx with
  | nil => simp [executeSteps] at h
  | cons s rest ih =>
    rcases hes : executeStep opts s ctx with ⟨r, exc⟩
    cases exc with
    | ok ctx2 =>
      have hrec : (executeSteps opts (s :: rest) ctx) =
          (r :: (executeSteps opts rest ctx2).1, (executeSteps opts rest ctx2).2) := by
        simp [executeSteps, hes]
      have h2 : (executeSteps opts rest ctx2).2 = .error msg := by
        rw [hrec] at h; exact h
      obtain ⟨pre, fail, hsplit, hpre, hfail, htake⟩ := ih ctx2 h2
      refine ⟨r :: pre, fail, ?_, ?_, hfail, ?_⟩
      · rw [hrec]; simp [hsplit]
      · intro x hx
        rcases List.mem_cons.mp hx with hx | hx
        · subst hx
          have := executeStep_ok_error_none opts s ctx ctx2 (by rw [hes])
          rw [hes] at this; exact this
        · exact hpre x hx
      · have hlen : (r :: pre).length + 1 = (pre.length + 1) + 1 := by simp
        rw [hlen]
        have : (s :: rest).take ((pre.length + 1) + 1) = s :: rest.take (pre.length + 1) := rfl
        rw [this]
        simp only [executeSteps, hes]
        rw [htake]
        simp
    | error e =>
      have hrec : executeSteps opts (s :: rest) ctx = ([r], .error e) := by
        simp [executeSteps, hes]
      have hme : e = msg := by
        rw [hrec] at h
        exact (Except.error.injEq _ _).mp h
      subst hme
      obtain ⟨e0, _hrun, hr1, hm⟩ :=
        executeStep_error_elim opts s ctx e (by rw [hes])
      rw [hes] at hr1
      have hr : r = { stepName := s.name, error := some e0, skipped := false } := hr1
      refine ⟨[], r, ?_, ?_, ⟨e0, ?_, ?_⟩, ?_⟩
      · rw [hrec]; rfl
      · intro x hx; exact absurd hx (List.not_mem_nil x)
      · rw [hr]
      · rw [hr]; exact hm
      · simp [executeSteps, hes]

/-- C3 witness: a concrete three-step list whose second step fails. -/
theorem executor_halts_on_failure_witness :
    (executeSteps demoOptsReal [demoOk, demoFail, demoNever] 0).2 =
      .error "step two failed: boom" ∧
    (∃ pre fail,
      (executeSteps demoOptsReal [demoOk, demoFail, demoNever] 0).1 = pre ++ [fail] ∧
      (∀ r ∈ pre, r.error = none) ∧
      (∃ e, fail.error = some e ∧
        "step two failed: boom" = "step " ++ fail.stepName ++ " failed: " ++ e) ∧
      executeSteps demoOptsReal ([demoOk, demoFail, demoNever].take (pre.length + 1)) 0 =
        (pre ++ [fail], .error "step two failed: boom")) :=
  ⟨rfl, executor_halts_on_failure demoOptsReal [demoOk, demoFail, demoNever] 0
    "step two failed: boom" rfl⟩

/-- C6 counterexample: the retained ExecutionResult does not record which
of the five outcomes occurred: a dry-run record equals the record of an
actual successful run of the same step, and the record of a disabled step
equals the record of a step skipped by a false condition, although the
causes differ. -/
theorem executionResult_outcomes_indistinguishable :
    (executeStep demoOptsDry demoOk 0).1 = (executeStep demoOptsReal demoOk 0).1 ∧
    (executeStep demoOptsReal demoDisabledGate 0).1 =
      (executeStep demoOptsReal demoCondGate 0).1 ∧
    demoOptsDry.dryRun = true ∧ demoOptsReal.dryRun = false ∧
    demoDisabledGate.enabled = false ∧ demoCondGate.enabled = true ∧
    demoCondGate.condition 0 = false := by
  refine ⟨rfl, rfl, rfl, rfl, rfl, rfl, rfl⟩

/-- C6 amended: the record retained per step distinguishes exactly three
outcomes, not five: the step name is always recorded; skipped is set for
a disabled step or a false condition (indistinguishably); an error is
recorded exactly for a real failing run; dry-run leaves a record equal to
that of a successful run. -/
theorem executionResult_three_outcome_classification {σ : Type} (opts : StepOptions)
    (s : ScaffoldStep σ) (ctx : σ) :
    ((executeStep opts s ctx).1.stepName = s.name) ∧
    ((executeStep opts s ctx).1.skipped = true ↔
      (s.enabled = false ∨ (s.enabled = true ∧ s.condition ctx = false))) ∧
    ((executeStep opts s ctx).1.error.isSome = true ↔
      (s.enabled = true ∧ s.condition ctx = true ∧ opts.dryRun = false ∧
        ∃ e, s.run ctx = .error e)) ∧
    ¬((executeStep opts s ctx).1.skipped = true ∧
      (executeStep opts s ctx).1.error.isSome = true) := by
  unfold executeStep
  by_cases h1 : s.enabled = false
  · simp [h1]
  · have h1t : s.enabled = true := by
      cases he : s.enabled with
      | false => exact absurd he h1
      | true => rfl
    by_cases h2 : s.condition ctx
    · by_cases h3 : opts.dryRun
      · simp [h1, h1t, h2, h3]
      · have h3f : opts.dryRun = false := by
          cases hd : opts.dryRun with
          | false => rfl
          | true => exact absurd hd h3
        cases hr : s.run ctx with
        | error e => simp [h1, h1t, h2, h3f, hr]
        | ok c => simp [h1, h1t, h2, h3f, hr]
    · have h2f : s.condition ctx = false := by
        cases hc : s.condition ctx with
        | false => rfl
        | true => exact absurd hc h2
      simp [h1, h1t, h2f]

/-- C1: once the context db suffix is non-empty, a later setDbSuffix call
keeps the existing value, an empty write is a no-op, and the db.create
suffix resolution reuses the stored suffix without overwriting it. -/
theorem dbSuffix_shared_rule (ctx : ScaffoldContext) (v generated : String)
    (h : ctx.dbSuffix ≠ "") :
    (ctx.setDbSuffix v).dbSuffix = ctx.dbSuffix ∧
    ctx.setDbSuffix "" = ctx ∧
    (dbCreateResolveSuffix ctx generated).1 = ctx ∧
    (dbCreateResolveSuffix ctx generated).2 = ctx.dbSuffix := by
  refine ⟨?_, ?_, ?_, ?_⟩
  · by_cases hv : v = ""
    · simp [ScaffoldContext.setDbSuffix, hv]
    · simp [ScaffoldContext.setDbSuffix, hv, h]
  · simp [ScaffoldContext.setDbSuffix]
  · simp [dbCreateResolveSuffix, ScaffoldContext.getDbSuffix, h]
  · simp [dbCreateResolveSuffix, ScaffoldContext.getDbSuffix, h]

/-- C1 witness: a context already holding swift_runner ignores a later
conflicting write and a db.create resolution. -/
theorem dbSuffix_shared_rule_witness :
    demoCtx.dbSuffix ≠ "" ∧
    ((demoCtx.setDbSuffix "other_core").dbSuffix = demoCtx.dbSuffix ∧
      demoCtx.setDbSuffix "" = demoCtx ∧
      (dbCreateResolveSuffix demoCtx "quick_core").1 = demoCtx ∧
      (dbCreateResolveSuffix demoCtx "quick_core").2 = demoCtx.dbSuffix) :=
  ⟨by decide, dbSuffix_shared_rule demoCtx "other_core" "quick_core" (by decide)⟩

/-- C9: the condition methods of the env.write, env.copy and env.read
steps return true for every context, whatever condition map the step
configuration carries. -/
theorem env_steps_condition_always_true (cfg : StepConfig) (ctx : ScaffoldContext) :
    (NewEnvWriteStep cfg).condition ctx = true ∧
    (NewEnvCopyStep cfg).condition ctx = true ∧
    (NewEnvReadStep cfg).condition ctx = true :=
  ⟨rfl, rfl, rfl⟩

/-- C10: with dry-run set the manager performs no filesystem write: the
local state is returned unchanged (the legacy migration and the local
state write are both skipped) while the generated suffix, or the one
already stored locally, is still seeded into the in-memory context. -/
theorem dryRun_manager_no_fs_writes (verbose quiet : Bool) (generated : String)
    (pf : Option PreFlight) (w : World) (steps : List (ScaffoldStep ScaffoldContext))
    (fs : LocalFS) (ctx : ScaffoldContext) :
    (runScaffold true verbose quiet generated pf w steps fs ctx).1 = fs ∧
    (seedSuffix true generated fs ctx).2 = fs ∧
    (seedSuffix true generated fs ctx).1 =
      ctx.setDbSuffix (if fs.localDbSuffix = "" then generated else fs.localDbSuffix) := by
  have hseed2 : (seedSuffix true generated fs ctx).2 = fs := by
    unfold seedSuffix
    by_cases hl : fs.localDbSuffix = "" <;> simp [hl]
  have hseed1 : (seedSuffix true generated fs ctx).1 =
      ctx.setDbSuffix (if fs.localDbSuffix = "" then generated else fs.localDbSuffix) := by
    unfold seedSuffix
    by_cases hl : fs.localDbSuffix = "" <;> simp [hl]
  refine ⟨?_, hseed2, hseed1⟩
  unfold runScaffold
  cases pf with
  | none => simpa using hseed2
  | some p =>
    by_cases hev : evalPreFlight w p <;> simp [hev] <;> exact hseed2

/-! ## Template resolver lemmas -/

/-- Rendering characters free of a double open brace with sufficient fuel
copies them unchanged. -/
theorem renderAux_no_open (snap : List (String × String)) :
    ∀ (cs : List Char), hasOpenPair cs = false →
      ∀ n, cs.length ≤ n → renderAux snap n cs = .ok cs := by
  intro cs
  induction cs with
  | nil => intro _ n _; cases n <;> rfl
  | cons c rest ih =>
    intro h n hn
    have hsplit := h
    simp only [hasOpenPair, Bool.or_eq_false_iff, decide_eq_false_iff_not] at hsplit
    obtain ⟨hcond, hrestopen⟩ := hsplit
    cases n with
    | zero => simp at hn
    | succ m =>
      have hm : rest.length ≤ m := by
        have := hn
        simp [List.length_cons] at this
        omega
      have hrest := ih hrestopen m hm
      simp only [renderAux]
      rw [if_neg hcond, hrest]
      rfl

/-- C7: a template string containing no double open brace renders to
itself over every snapshot. -/
theorem render_no_placeholder_identity (s : String) (snap : List (String × String))
    (h : hasOpenPair s.data = false) : render s snap = .ok s := by
  unfold render
  rw [renderAux_no_open snap s.data h s.data.length le_rfl]
  rfl

/-- C7 witness: a concrete plain string is returned unchanged. -/
theorem render_no_placeholder_identity_witness :
    hasOpenPair ("DB_HOST=127.0.0.1").data = false ∧
    render "DB_HOST=127.0.0.1" [("Path", "feature-auth")] = .ok "DB_HOST=127.0.0.1" :=
  ⟨by decide, render_no_placeholder_identity _ _ (by decide)⟩

/-! ## Trimming lemmas for the binary step -/

/-- The first element surviving dropWhile falsifies the predicate. -/
theorem head_dropWhile_false {α : Type} (p : α → Bool) :
    ∀ (l : List α) (x : α), (l.dropWhile p).head? = some x → p x = false := by
  intro l
  induction l with
  | nil => intro x hx; simp at hx
  | cons a l ih =>
    intro x hx
    by_cases hp : p a
    · rw [List.dropWhile_cons, if_pos hp] at hx
      exact ih x hx
    · rw [List.dropWhile_cons, if_neg hp] at hx
      have hxa : x = a := by
        simpa using hx.symm
      subst hxa
      cases hpa : p x with
      | false => rfl
      | true => exact absurd hpa hp

/-- C8 counterexample: with store_as set, the stored variable is the
output with leading whitespace removed as well: the captured output
" done" followed by a newline is stored as "done", not as " done" with
only the trailing newline removed. -/
theorem binaryStore_trims_leading_too :
    (binaryStoreOutput "Out" " done\n" demoCtx0).getVar "Out" = "done" ∧
    ("done" : String) ≠ " done" := by
  constructor
  · rfl
  · decide

/-- C8 amended: with store_as set, the stored value is the captured
output with both leading and trailing whitespace and newlines trimmed:
the output splits as whitespace, stored value, whitespace, and the
stored value neither starts nor ends with whitespace. -/
theorem binaryStore_trimspace_semantics (storeAs output : String) (ctx : ScaffoldContext)
    (h : storeAs ≠ "") :
    ∃ pre post,
      (binaryStoreOutput storeAs output ctx).getVar storeAs = goTrimSpace output ∧
      output.data = pre ++ (goTrimSpace output).data ++ post ∧
      (∀ c ∈ pre, goIsSpace c = true) ∧
      (∀ c ∈ post, goIsSpace c = true) ∧
      (∀ x, (goTrimSpace output).data.head? = some x → goIsSpace x = false) ∧
      (∀ x, (goTrimSpace output).data.getLast? = some x → goIsSpace x = false) := by
  have hdata : (goTrimSpace output).data =
      ((output.data.dropWhile goIsSpace).reverse.dropWhile goIsSpace).reverse := rfl
  have hjoin : (goTrimSpace output).data ++
      ((output.data.dropWhile goIsSpace).reverse.takeWhile goIsSpace).reverse =
      output.data.dropWhile goIsSpace := by
    rw [hdata, ← List.reverse_append, List.takeWhile_append_dropWhile, List.reverse_reverse]
  refine ⟨output.data.takeWhile goIsSpace,
    ((output.data.dropWhile goIsSpace).reverse.takeWhile goIsSpace).reverse,
    ?_, ?_, ?_, ?_, ?_, ?_⟩
  · simp [binaryStoreOutput, h, ScaffoldContext.setVar, ScaffoldContext.getVar]
  · rw [List.append_assoc, hjoin, List.takeWhile_append_dropWhile]
  · intro c hc
    exact List.mem_takeWhile_imp hc
  · intro c hc
    rw [List.mem_reverse] at hc
    exact List.mem_takeWhile_imp hc
  · intro x hx
    have hne : (goTrimSpace output).data ≠ [] := by
      intro hnil; rw [hnil] at hx; simp at hx
    have hmidhead : (output.data.dropWhile goIsSpace).head? = some x := by
      rw [← hjoin]
      cases hd : (goTrimSpace output).data with
      | nil => exact absurd hd hne
      | cons y ys =>
        rw [hd] at hx
        simp at hx
        simp [hx]
    exact head_dropWhile_false goIsSpace _ x hmidhead
  · intro x hx
    rw [hdata, List.getLast?_reverse] at hx
    exact head_dropWhile_false goIsSpace _ x hx

/-- C8 witness for the amended statement, at a concrete output with
leading and trailing whitespace. -/
theorem binaryStore_trimspace_semantics_witness :
    ("Out" : String) ≠ "" ∧
    (∃ pre post,
      (binaryStoreOutput "Out" "  v1.2.3 \n" demoCtx0).getVar "Out" = goTrimSpace "  v1.2.3 \n" ∧
      ("  v1.2.3 \n" : String).data = pre ++ (goTrimSpace "  v1.2.3 \n").data ++ post ∧
      (∀ c ∈ pre, goIsSpace c = true) ∧
      (∀ c ∈ post, goIsSpace c = true) ∧
      (∀ x, (goTrimSpace "  v1.2.3 \n").data.head? = some x → goIsSpace x = false) ∧
      (∀ x, (goTrimSpace "  v1.2.3 \n").data.getLast? = some x → goIsSpace x = false)) :=
  ⟨by decide, binaryStore_trimspace_semantics "Out" "  v1.2.3 \n" demoCtx0 (by decide)⟩

/-! ## Pre-flight lemmas -/

/-- A failing universally-quantified condition value leaves at least one
missing item. -/
theorem missingFrom_ne_nil_of_all_false (present : List String) (v : CondVal)
    (h : (condValItems v).all (fun s => present.contains s) = false) :
    missingFrom present v ≠ [] := by
  rw [List.all_eq_false] at h
  obtain ⟨x, hx, hpx⟩ := h
  intro hnil
  have hmem : x ∈ missingFrom present v := by
    refine List.mem_filter.mpr ⟨hx, ?_⟩
    simp only [Bool.not_eq_true] at hpx
    show (!present.contains x) = true
    rw [hpx]
    rfl
  rw [hnil] at hmem
  exact absurd hmem (List.not_mem_nil x)

/-- C5: when declared pre-flight conditions do not all hold, RunScaffold
aborts before any step is created or executed (its outcome is the same as
with the empty step list), the returned error is the grouped
pre-flight diagnostic, at least one group of missing items is non-empty,
and the diagnostic enumerates the missing environment variables, commands
and files under their kind headers. -/
theorem preflight_failure_aborts (dryRun verbose quiet : Bool) (generated : String)
    (p : PreFlight) (w : World) (steps : List (ScaffoldStep ScaffoldContext))
    (fs : LocalFS) (ctx : ScaffoldContext)
    (h : evalPreFlight w p = false) :
    (runScaffold dryRun verbose quiet generated (some p) w steps fs ctx).2 =
      .error (generatePreFlightError w p) ∧
    runScaffold dryRun verbose quiet generated (some p) w steps fs ctx =
      runScaffold dryRun verbose quiet generated (some p) w [] fs ctx ∧
    (preFlightMissingEnv w p ≠ [] ∨ preFlightMissingCommands w p ≠ [] ∨
      preFlightMissingFiles w p ≠ []) ∧
    generatePreFlightError w p =
      "pre-flight checks failed:\n\n" ++
        String.intercalate "\n\n"
          (groupMsg "Missing environment variables:" (preFlightMissingEnv w p) ++
            groupMsg "Missing commands:" (preFlightMissingCommands w p) ++
            groupMsg "Missing files:" (preFlightMissingFiles w p)) ++
        "\n\nPlease resolve these issues and try again" := by
  have hmiss : preFlightMissingEnv w p ≠ [] ∨ preFlightMissingCommands w p ≠ [] ∨
      preFlightMissingFiles w p ≠ [] := by
    have h2 := h
    simp only [evalPreFlight, Bool.and_eq_false_iff] at h2
    rcases h2 with (h2 | h2) | h2
    · left
      cases hv : p.envExists with
      | none => rw [hv] at h2; simp at h2
      | some v =>
        rw [hv] at h2
        unfold preFlightMissingEnv
        rw [hv]
        exact missingFrom_ne_nil_of_all_false w.envVars v h2
    · right; left
      cases hv : p.commandExists with
      | none => rw [hv] at h2; simp at h2
      | some v =>
        rw [hv] at h2
        unfold preFlightMissingCommands
        rw [hv]
        exact missingFrom_ne_nil_of_all_false w.commands v h2
    · right; right
      cases hv : p.fileExists with
      | none => rw [hv] at h2; simp at h2
      | some v =>
        rw [hv] at h2
        unfold preFlightMissingFiles
        rw [hv]
        exact missingFrom_ne_nil_of_all_false w.files v h2
  have hparts : groupMsg "Missing environment variables:" (preFlightMissingEnv w p) ++
      groupMsg "Missing commands:" (preFlightMissingCommands w p) ++
      groupMsg "Missing files:" (preFlightMissingFiles w p) ≠ [] := by
    rcases hmiss with hm | hm | hm
    · apply List.append_ne_nil_of_left_ne_nil
      apply List.append_ne_nil_of_left_ne_nil
      simp [groupMsg, hm]
    · apply List.append_ne_nil_of_left_ne_nil
      apply List.append_ne_nil_of_right_ne_nil
      simp [groupMsg, hm]
    · apply List.append_ne_nil_of_right_ne_nil
      simp [groupMsg, hm]
  refine ⟨?_, ?_, hmiss, ?_⟩
  · unfold runScaffold
    simp [h]
  · unfold runScaffold
    simp [h]
  · unfold generatePreFlightError
    rw [if_pos hparts]

/-- C5 witness: a pre-flight map expecting two env vars and the op
command fails in a world holding none of them, and the abort together
with the grouped diagnostic follows. -/
theorem preflight_failure_aborts_witness :
    evalPreFlight demoWorld demoPreFlight = false ∧
    ((runScaffold false false false "swift_runner" (some demoPreFlight) demoWorld []
        demoFS demoCtx0).2 = .error (generatePreFlightError demoWorld demoPreFlight) ∧
      runScaffold false false false "swift_runner" (some demoPreFlight) demoWorld []
          demoFS demoCtx0 =
        runScaffold false false false "swift_runner" (some demoPreFlight) demoWorld []
          demoFS demoCtx0 ∧
      (preFlightMissingEnv demoWorld demoPreFlight ≠ [] ∨
        preFlightMissingCommands demoWorld demoPreFlight ≠ [] ∨
        preFlightMissingFiles demoWorld demoPreFlight ≠ []) ∧
      generatePreFlightError demoWorld demoPreFlight =
        "pre-flight checks failed:\n\n" ++
          String.intercalate "\n\n"
            (groupMsg "Missing environment variables:"
                (preFlightMissingEnv demoWorld demoPreFlight) ++
              groupMsg "Missing commands:" (preFlightMissingCommands demoWorld demoPreFlight) ++
              groupMsg "Missing files:" (preFlightMissingFiles demoWorld demoPreFlight)) ++
          "\n\nPlease resolve these issues and try again") :=
  ⟨by decide, preflight_failure_aborts false false false "swift_runner" demoPreFlight
    demoWorld [] demoFS demoCtx0 (by decide)⟩

/-! ## Splitting and joining on newlines -/

/-- The last element of a list with a non-empty extension is the last of
the extension. -/
theorem getLastAppendNe {α : Type} : ∀ (l₁ l₂ : List α), l₂ ≠ [] →
    (l₁ ++ l₂).getLast? = l₂.getLast? := by
  intro l₁
  induction l₁ with
  | nil => intro l₂ _; rfl
  | cons a l ih =>
    intro l₂ h
    have hne : l ++ l₂ ≠ [] := by
      intro hnil
      rcases List.append_eq_nil.mp hnil with ⟨_, h2⟩
      exact h h2
    rcases List.exists_cons_of_ne_nil hne with ⟨c, u, hx⟩
    show (a :: (l ++ l₂)).getLast? = l₂.getLast?
    rw [hx, List.getLast?_cons_cons, ← hx]
    exact ih l₂ h

/-- Splitting always yields at least one piece. -/
theorem splitNL_ne_nil : ∀ cs : List Char, splitNL cs ≠ [] := by
  intro cs
  induction cs with
  | nil => simp [splitNL]
  | cons c rest ih =>
    by_cases hc : c = '\n'
    · simp [splitNL, hc]
    · simp only [splitNL, if_neg hc]
      cases h : splitNL rest with
      | nil => exact absurd h ih
      | cons p ps => simp [List.modifyHead]

/-- Prepending a character to the head piece commutes with joining. -/
theorem joinNL_modifyHead (c : Char) (p : List Char) (ps : List (List Char)) :
    joinNL ((c :: p) :: ps) = c :: joinNL (p :: ps) := by
  cases ps with
  | nil => rfl
  | cons q qs => rfl

/-- Joining undoes splitting. -/
theorem joinNL_splitNL : ∀ cs : List Char, joinNL (splitNL cs) = cs := by
  intro cs
  induction cs with
  | nil => rfl
  | cons c rest ih =>
    by_cases hc : c = '\n'
    · subst hc
      simp only [splitNL, if_pos rfl]
      cases h : splitNL rest with
      | nil => exact absurd h (splitNL_ne_nil rest)
      | cons q qs =>
        rw [h] at ih
        show joinNL ([] :: q :: qs) = '\n' :: rest
        rw [joinNL]
        simpa using ih
    · simp only [splitNL, if_neg hc]
      cases h : splitNL rest with
      | nil => exact absurd h (splitNL_ne_nil rest)
      | cons q qs =>
        rw [h] at ih
        simp only [List.modifyHead]
        rw [joinNL_modifyHead]
        rw [ih]

/-- No piece of a split contains a newline. -/
theorem mem_splitNL_noNL : ∀ (cs : List Char) (p : List Char),
    p ∈ splitNL cs → ('\n' : Char) ∉ p := by
  intro cs
  induction cs with
  | nil =>
    intro p hp
    simp [splitNL] at hp
    simp [hp]
  | cons c rest ih =>
    intro p hp
    by_cases hc : c = '\n'
    · rw [splitNL, if_pos hc] at hp
      rcases List.mem_cons.mp hp with h | h
      · simp [h]
      · exact ih p h
    · rw [splitNL, if_neg hc] at hp
      cases hs : splitNL rest with
      | nil => exact absurd hs (splitNL_ne_nil rest)
      | cons q qs =>
        rw [hs] at hp
        simp only [List.modifyHead] at hp
        rcases List.mem_cons.mp hp with h | h
        · subst h
          intro hmem
          rcases List.mem_cons.mp hmem with h2 | h2
          · exact hc h2.symm
          · exact ih q (by rw [hs]; exact List.mem_cons_self q qs) h2
        · exact ih p (by rw [hs]; exact List.mem_cons_of_mem q h)

/-- A newline-free piece splits to itself. -/
theorem splitNL_noNL : ∀ p : List Char, ('\n' : Char) ∉ p → splitNL p = [p] := by
  intro p
  induction p with
  | nil => intro _; rfl
  | cons c p ih =>
    intro h
    have hc : c ≠ '\n' := by
      intro hc; exact h (by rw [hc]; exact List.mem_cons_self '\n' p)
    have hp : ('\n' : Char) ∉ p := by
      intro hp; exact h (List.mem_cons_of_mem c hp)
    rw [splitNL, if_neg hc, ih hp]
    rfl

/-- Splitting a newline-free piece glued before a newline peels it
off. -/
theorem splitNL_append_nl : ∀ (p cs : List Char), ('\n' : Char) ∉ p →
    splitNL (p ++ '\n' :: cs) = p :: splitNL cs := by
  intro p
  induction p with
  | nil =>
    intro cs _
    simp [splitNL]
  | cons c p ih =>
    intro cs h
    have hc : c ≠ '\n' := by
      intro hc; exact h (by rw [hc]; exact List.mem_cons_self '\n' p)
    have hp : ('\n' : Char) ∉ p := by
      intro hp; exact h (List.mem_cons_of_mem c hp)
    show splitNL (c :: (p ++ '\n' :: cs)) = (c :: p) :: splitNL cs
    rw [splitNL, if_neg hc, ih cs hp]
    rfl

/-- Splitting undoes joining of non-empty newline-free pieces. -/
theorem splitNL_joinNL : ∀ ps : List (List Char), ps ≠ [] →
    (∀ p ∈ ps, ('\n' : Char) ∉ p) → splitNL (joinNL ps) = ps := by
  intro ps
  induction ps with
  | nil => intro h _; exact absurd rfl h
  | cons p qs ih =>
    intro _ hfree
    cases qs with
    | nil =>
      show splitNL (joinNL [p]) = [p]
      rw [joinNL]
      exact splitNL_noNL p (hfree p (List.mem_cons_self p []))
    | cons q qs2 =>
      rw [joinNL]
      rw [splitNL_append_nl p _ (hfree p (List.mem_cons_self p (q :: qs2)))]
      rw [ih (by simp) (fun x hx => hfree x (List.mem_cons_of_mem p hx))]

/-- Joining after appending one piece appends it after a newline. -/
theorem joinNL_append_single : ∀ (ps : List (List Char)) (q : List Char), ps ≠ [] →
    joinNL (ps ++ [q]) = joinNL ps ++ '\n' :: q := by
  intro ps
  induction ps with
  | nil => intro q h; exact absurd rfl h
  | cons p qs ih =>
    intro q _
    cases qs with
    | nil => rfl
    | cons q2 qs2 =>
      have ihq := ih q (by simp)
      have e1 : joinNL (p :: q2 :: (qs2 ++ [q])) =
          p ++ '\n' :: joinNL (q2 :: (qs2 ++ [q])) := rfl
      have e2 : joinNL (p :: q2 :: qs2) = p ++ '\n' :: joinNL (q2 :: qs2) := rfl
      have e3 : joinNL (q2 :: (qs2 ++ [q])) = joinNL ((q2 :: qs2) ++ [q]) := rfl
      show joinNL (p :: q2 :: (qs2 ++ [q])) = joinNL (p :: q2 :: qs2) ++ '\n' :: q
      rw [e1, e2, e3, ihq]
      simp

/-- The join of pieces with a non-empty last piece ends as that piece
ends. -/
theorem getLastJoinNL : ∀ (ps : List (List Char)) (l : List Char),
    ps.getLast? = some l → l ≠ [] → (joinNL ps).getLast? = l.getLast? := by
  intro ps
  induction ps with
  | nil => intro l h _; simp at h
  | cons p qs ih =>
    intro l hlast hne
    cases qs with
    | nil =>
      simp at hlast
      subst hlast
      rfl
    | cons q qs2 =>
      have hlast2 : (q :: qs2).getLast? = some l := by
        rw [List.getLast?_cons_cons] at hlast
        exact hlast
      have hx := ih l hlast2 hne
      have hxne : joinNL (q :: qs2) ≠ [] := by
        intro hnil
        rw [hnil] at hx
        have hlnone : l.getLast? = none := hx.symm
        rcases List.exists_cons_of_ne_nil hne with ⟨a, l2, rfl⟩
        simp at hlnone
      have e1 : joinNL (p :: q :: qs2) = p ++ '\n' :: joinNL (q :: qs2) := rfl
      rw [e1, getLastAppendNe p _ (by simp)]
      show (['\n'] ++ joinNL (q :: qs2)).getLast? = l.getLast?
      rw [getLastAppendNe ['\n'] _ hxne]
      exact hx

/-- The ensured content always ends with a newline. -/
theorem ensureNL_ends (cs : List Char) : (ensureNL cs).getLast? = some '\n' := by
  unfold ensureNL
  by_cases h : cs.getLast? = some '\n'
  · rw [if_pos h]; exact h
  · rw [if_neg h]
    exact List.getLast?_concat cs

/-! ## First-match and replacement lemmas -/

/-- An empty line never matches a key. -/
theorem matchesKey_nil_false (k : List Char) : matchesKey k [] = false := by
  cases k <;> rfl

/-- A matching line is non-empty. -/
theorem matchesKey_ne_nil (k l : List Char) (h : matchesKey k l = true) : l ≠ [] := by
  intro hnil
  rw [hnil, matchesKey_nil_false] at h
  cases h

/-- No first match exactly when no line matches. -/
theorem firstMatchIdx_none_iff (k : List Char) : ∀ ls : List (List Char),
    firstMatchIdx k ls = none ↔ ∀ l ∈ ls, matchesKey k l = false := by
  intro ls
  induction ls with
  | nil => simp [firstMatchIdx]
  | cons l ls ih =>
    by_cases hm : matchesKey k l
    · simp [firstMatchIdx, hm]
    · simp only [firstMatchIdx, if_neg hm, Option.map_eq_none']
      rw [ih]
      constructor
      · intro h x hx
        rcases List.mem_cons.mp hx with h2 | h2
        · subst h2
          cases hmm : matchesKey k x with
          | false => rfl
          | true => exact absurd hmm hm
        · exact h x h2
      · intro h x hx
        exact h x (List.mem_cons_of_mem l hx)

/-- The replacement loop finds no line exactly when no first match
exists. -/
theorem replaceFirst_none_iff (k v : List Char) : ∀ ls : List (List Char),
    replaceFirst k v ls = none ↔ firstMatchIdx k ls = none := by
  intro ls
  induction ls with
  | nil => simp [replaceFirst, firstMatchIdx]
  | cons l ls ih =>
    by_cases hm : matchesKey k l
    · simp [replaceFirst, firstMatchIdx, hm]
    · simp only [replaceFirst, firstMatchIdx, if_neg hm, Option.map_eq_none']
      exact ih

/-- The first match index points at a matching line. -/
theorem firstMatchIdx_spec (k : List Char) : ∀ (ls : List (List Char)) (i : Nat),
    firstMatchIdx k ls = some i →
    ∃ li, ls[i]? = some li ∧ matchesKey k li = true := by
  intro ls
  induction ls with
  | nil => intro i h; simp [firstMatchIdx] at h
  | cons l ls ih =>
    intro i h
    by_cases hm : matchesKey k l
    · rw [firstMatchIdx, if_pos hm] at h
      have hi : i = 0 := ((Option.some.injEq 0 i).mp h).symm
      subst hi
      exact ⟨l, by simp, hm⟩
    · rw [firstMatchIdx, if_neg hm] at h
      rcases Option.map_eq_some'.mp h with ⟨j, hj, hij⟩
      rcases ih j hj with ⟨li, hli, hmi⟩
      refine ⟨li, ?_, hmi⟩
      rw [← hij]
      rw [List.getElem?_cons_succ]
      exact hli

/-- A first match index is within bounds. -/
theorem firstMatchIdx_lt (k : List Char) (ls : List (List Char)) (i : Nat)
    (h : firstMatchIdx k ls = some i) : i < ls.length := by
  rcases firstMatchIdx_spec k ls i h with ⟨li, hli, _⟩
  by_contra hc
  push_neg at hc
  rw [List.getElem?_eq_none hc] at hli
  cases hli

/-- The replacement loop rewrites exactly the first matching line. -/
theorem replaceFirst_of_firstMatchIdx (k v : List Char) : ∀ (ls : List (List Char)) (i : Nat),
    firstMatchIdx k ls = some i →
    replaceFirst k v ls = some (ls.set i (kvLine k v)) := by
  intro ls
  induction ls with
  | nil => intro i h; simp [firstMatchIdx] at h
  | cons l ls ih =>
    intro i h
    by_cases hm : matchesKey k l
    · rw [firstMatchIdx, if_pos hm] at h
      have hi : i = 0 := ((Option.some.injEq 0 i).mp h).symm
      subst hi
      rw [replaceFirst, if_pos hm]
      rfl
    · rw [firstMatchIdx, if_neg hm] at h
      rcases Option.map_eq_some'.mp h with ⟨j, hj, hij⟩
      rw [replaceFirst, if_neg hm, ih j hj]
      rw [← hij]
      rfl

/-- Appending a non-matching line does not change the first match. -/
theorem firstMatchIdx_append_nonmatch (k q : List Char) (hq : matchesKey k q = false) :
    ∀ ls : List (List Char), firstMatchIdx k (ls ++ [q]) = firstMatchIdx k ls := by
  intro ls
  induction ls with
  | nil => simp [firstMatchIdx, hq]
  | cons l ls ih =>
    by_cases hm : matchesKey k l
    · show firstMatchIdx k (l :: (ls ++ [q])) = firstMatchIdx k (l :: ls)
      rw [firstMatchIdx, if_pos hm, firstMatchIdx, if_pos hm]
    · show firstMatchIdx k (l :: (ls ++ [q])) = firstMatchIdx k (l :: ls)
      rw [firstMatchIdx, if_neg hm, firstMatchIdx, if_neg hm, ih]

/-! ## The env.write content transformation, line by line -/

/-- The written key=value line contains no newline when neither part
does. -/
theorem kvLine_noNL (key value : List Char) (hk : ('\n' : Char) ∉ key)
    (hv : ('\n' : Char) ∉ value) : ('\n' : Char) ∉ kvLine key value := by
  unfold kvLine
  intro hmem
  rcases List.mem_append.mp hmem with h | h
  · exact hk h
  · rcases List.mem_cons.mp h with h2 | h2
    · simp at h2
    · exact hv h2

/-- The written line is never empty. -/
theorem kvLine_ne_nil (key value : List Char) : kvLine key value ≠ [] := by
  unfold kvLine
  intro h
  rcases List.append_eq_nil.mp h with ⟨_, h2⟩
  cases h2

/-- A split with an empty last piece decomposes as its front pieces plus
the empty one. -/
theorem eq_dropLast_append_of_getLast (es : List (List Char)) (hne : es ≠ [])
    (h : es.getLast? = some []) : es = es.dropLast ++ [([] : List Char)] := by
  have h2 := List.getLast?_eq_getLast es hne
  rw [h] at h2
  have h3 : es.getLast hne = [] := by
    have := (Option.some.injEq _ _).mp h2
    exact this.symm
  have h4 := List.dropLast_append_getLast hne
  rw [h3] at h4
  exact h4.symm

/-- Only the empty content splits into the single empty piece. -/
theorem splitNL_eq_singleton_iff (content : List Char) :
    splitNL content = [[]] → content = [] := by
  intro h
  have hj := joinNL_splitNL content
  rw [h] at hj
  exact hj.symm

/-- The join of newline-free pieces with a non-empty last piece does not
end with a newline. -/
theorem joinNL_getLast_ne_nl (es : List (List Char))
    (hfree : ∀ p ∈ es, ('\n' : Char) ∉ p)
    (g : List Char) (hg : es.getLast? = some g) (hgne : g ≠ []) :
    ∃ c, (joinNL es).getLast? = some c ∧ c ≠ '\n' := by
  have h1 := getLastJoinNL es g hg hgne
  have h2 := List.getLast?_eq_getLast g hgne
  refine ⟨g.getLast hgne, by rw [h1]; exact h2, ?_⟩
  intro hEq
  have hmem : g.getLast hgne ∈ g := List.getLast_mem hgne
  have hgmem : g ∈ es := List.mem_of_mem_getLast? (by rw [hg]; rfl)
  rw [hEq] at hmem
  exact hfree g hgmem hmem

/-- Setting one piece of a split with no trailing empty piece keeps the
last piece non-empty when the new piece is non-empty. -/
theorem getLast_set_ne_nil (es : List (List Char)) (i : Nat) (kv : List Char)
    (hi : i < es.length) (hkv : kv ≠ []) (hne : es ≠ [])
    (hlast : es.getLast? ≠ some ([] : List Char)) :
    ∃ l2, (es.set i kv).getLast? = some l2 ∧ l2 ≠ [] := by
  have hlen : (es.set i kv).length = es.length := List.length_set es i kv
  have hgl : (es.set i kv).getLast? = (es.set i kv)[es.length - 1]? := by
    rw [List.getLast?_eq_getElem?, hlen]
  by_cases hieq : i = es.length - 1
  · refine ⟨kv, ?_, hkv⟩
    rw [hgl, ← hieq]
    exact List.getElem?_set_eq_of_lt kv hi
  · have hg2 := List.getLast?_eq_getLast es hne
    refine ⟨es.getLast hne, ?_, ?_⟩
    · rw [hgl, List.getElem?_set_ne hieq, ← List.getLast?_eq_getElem?]
      exact hg2
    · intro hnil
      apply hlast
      rw [hg2, hnil]

/-- Replacement branch of the env.write content transformation: when a
line matches, the resulting file has exactly the original lines with the
first matching one replaced by key=value. -/
theorem envWriteCore_lines_replace (key value content : List Char)
    (hk : ('\n' : Char) ∉ key) (hv : ('\n' : Char) ∉ value) (hc : content ≠ [])
    (i : Nat) (hfind : firstMatchIdx key (fileLines content) = some i) :
    fileLines (envWriteCore key value content) =
      (fileLines content).set i (kvLine key value) := by
  have hkvfree := kvLine_noNL key value hk hv
  have hkvne := kvLine_ne_nil key value
  have hes_ne := splitNL_ne_nil content
  have hes_free := mem_splitNL_noNL content
  by_cases hlast : (splitNL content).getLast? = some []
  · -- the content ends with a newline: its split carries a trailing empty piece
    have hesL := eq_dropLast_append_of_getLast (splitNL content) hes_ne hlast
    have hfl : fileLines content = (splitNL content).dropLast := by
      unfold fileLines dropTrailingEmpty
      rw [if_pos hlast]
    have hfind_es : firstMatchIdx key (splitNL content) = some i := by
      conv_lhs => rw [hesL]
      rw [firstMatchIdx_append_nonmatch key [] (matchesKey_nil_false key), ← hfl]
      exact hfind
    have hiL : i < (splitNL content).dropLast.length :=
      firstMatchIdx_lt key _ i (by rw [← hfl]; exact hfind)
    have hrep := replaceFirst_of_firstMatchIdx key value (splitNL content) i hfind_es
    have hset : (splitNL content).set i (kvLine key value) =
        (splitNL content).dropLast.set i (kvLine key value) ++ [([] : List Char)] := by
      conv_lhs => rw [hesL]
      rw [List.set_append_left i (kvLine key value) hiL]
    have hLset_ne : (splitNL content).dropLast.set i (kvLine key value) ≠ [] := by
      intro hnil
      have h0 : ((splitNL content).dropLast.set i (kvLine key value)).length = 0 := by
        rw [hnil]; rfl
      rw [List.length_set] at h0
      omega
    have hjoin : joinNL ((splitNL content).set i (kvLine key value)) =
        joinNL ((splitNL content).dropLast.set i (kvLine key value)) ++ ['\n'] := by
      rw [hset, joinNL_append_single _ _ hLset_ne]
    have hends : (joinNL ((splitNL content).set i (kvLine key value))).getLast? =
        some '\n' := by
      rw [hjoin]
      exact List.getLast?_concat _
    have hfree2 : ∀ p ∈ (splitNL content).set i (kvLine key value),
        ('\n' : Char) ∉ p := by
      intro p hp
      rcases List.mem_or_eq_of_mem_set hp with h2 | h2
      · exact hes_free p h2
      · rw [h2]; exact hkvfree
    have hset_ne : (splitNL content).set i (kvLine key value) ≠ [] := by
      intro hnil
      have h0 : ((splitNL content).set i (kvLine key value)).length = 0 := by
        rw [hnil]; rfl
      rw [List.length_set] at h0
      rcases List.exists_cons_of_ne_nil hes_ne with ⟨a, l, hx⟩
      rw [hx] at h0
      simp at h0
    have hres : envWriteCore key value content =
        ensureNL (joinNL ((splitNL content).set i (kvLine key value))) := by
      unfold envWriteCore
      rw [hrep]
    rw [hres]
    unfold ensureNL
    rw [if_pos hends]
    unfold fileLines dropTrailingEmpty
    rw [splitNL_joinNL _ hset_ne hfree2, hset]
    rw [if_pos (List.getLast?_concat _), List.dropLast_concat, if_pos hlast]
  · -- no trailing newline: the lines are the split pieces themselves
    have hfl : fileLines content = splitNL content := by
      unfold fileLines dropTrailingEmpty
      rw [if_neg hlast]
    have hfind_es : firstMatchIdx key (splitNL content) = some i := by
      rw [← hfl]; exact hfind
    have hiL : i < (splitNL content).length := firstMatchIdx_lt key _ i hfind_es
    have hrep := replaceFirst_of_firstMatchIdx key value (splitNL content) i hfind_es
    rcases getLast_set_ne_nil (splitNL content) i (kvLine key value) hiL hkvne
        hes_ne hlast with ⟨l2, hl2, hl2ne⟩
    have hfree2 : ∀ p ∈ (splitNL content).set i (kvLine key value),
        ('\n' : Char) ∉ p := by
      intro p hp
      rcases List.mem_or_eq_of_mem_set hp with h2 | h2
      · exact hes_free p h2
      · rw [h2]; exact hkvfree
    rcases joinNL_getLast_ne_nl _ hfree2 l2 hl2 hl2ne with ⟨c, hc2, hcne⟩
    have hset_ne : (splitNL content).set i (kvLine key value) ≠ [] := by
      intro hnil
      have h0 : ((splitNL content).set i (kvLine key value)).length = 0 := by
        rw [hnil]; rfl
      rw [List.length_set] at h0
      omega
    have hres : envWriteCore key value content =
        ensureNL (joinNL ((splitNL content).set i (kvLine key value))) := by
      unfold envWriteCore
      rw [hrep]
    rw [hres]
    unfold ensureNL
    rw [if_neg (by rw [hc2]; intro hx; exact hcne ((Option.some.injEq _ _).mp hx))]
    have hjoin2 : joinNL ((splitNL content).set i (kvLine key value)) ++ ['\n'] =
        joinNL ((splitNL content).set i (kvLine key value) ++ [[]]) := by
      rw [joinNL_append_single _ _ hset_ne]
    rw [hjoin2]
    unfold fileLines dropTrailingEmpty
    rw [splitNL_joinNL _ (by simp) ?hfree3]
    case hfree3 =>
      intro p hp
      rcases List.mem_append.mp hp with h2 | h2
      · exact hfree2 p h2
      · rcases List.mem_cons.mp h2 with h3 | h3
        · rw [h3]; intro hx; cases hx
        · cases h3
    rw [if_pos (List.getLast?_concat _), List.dropLast_concat, if_neg hlast]

/-- Append branch of the env.write content transformation: when no line
matches, the resulting file is the original lines followed by exactly one
key=value line. -/
theorem envWriteCore_lines_append (key value content : List Char)
    (hk : ('\n' : Char) ∉ key) (hv : ('\n' : Char) ∉ value) (hc : content ≠ [])
    (hfind : firstMatchIdx key (fileLines content) = none) :
    fileLines (envWriteCore key value content) =
      fileLines content ++ [kvLine key value] := by
  have hkvfree := kvLine_noNL key value hk hv
  have hes_ne := splitNL_ne_nil content
  have hes_free := mem_splitNL_noNL content
  have hcontent : joinNL (splitNL content) = content := joinNL_splitNL content
  by_cases hlast : (splitNL content).getLast? = some []
  · have hesL := eq_dropLast_append_of_getLast (splitNL content) hes_ne hlast
    have hfl : fileLines content = (splitNL content).dropLast := by
      unfold fileLines dropTrailingEmpty
      rw [if_pos hlast]
    have hL_ne : (splitNL content).dropLast ≠ [] := by
      intro hnil
      apply hc
      apply splitNL_eq_singleton_iff
      rw [hesL, hnil]
      rfl
    have hfind_es : firstMatchIdx key (splitNL content) = none := by
      conv_lhs => rw [hesL]
      rw [firstMatchIdx_append_nonmatch key [] (matchesKey_nil_false key), ← hfl]
      exact hfind
    have hrep : replaceFirst key value (splitNL content) = none :=
      (replaceFirst_none_iff key value _).mpr hfind_es
    have hcend : content.getLast? = some '\n' := by
      rw [← hcontent]
      conv_lhs => rw [hesL]
      rw [joinNL_append_single _ _ hL_ne]
      exact List.getLast?_concat _
    have hres : envWriteCore key value content =
        content ++ key ++ '=' :: value ++ ['\n'] := by
      unfold envWriteCore
      rw [hrep]
      unfold ensureNL
      rw [if_pos hcend]
    have hcjoin : content = joinNL ((splitNL content).dropLast) ++ ['\n'] := by
      conv_lhs => rw [← hcontent]
      conv_lhs => rw [hesL]
      rw [joinNL_append_single _ _ hL_ne]
    have htarget : content ++ key ++ '=' :: value ++ ['\n'] =
        joinNL (((splitNL content).dropLast ++ [kvLine key value]) ++ [[]]) := by
      conv_lhs => rw [hcjoin]
      rw [joinNL_append_single _ _
        (by simp [hL_ne] : (splitNL content).dropLast ++ [kvLine key value] ≠ [])]
      rw [joinNL_append_single _ _ hL_ne]
      simp [kvLine, List.append_assoc]
    rw [hres, htarget]
    unfold fileLines dropTrailingEmpty
    rw [splitNL_joinNL _ (by simp) ?hfr]
    case hfr =>
      intro p hp
      rcases List.mem_append.mp hp with h2 | h2
      · rcases List.mem_append.mp h2 with h3 | h3
        · exact hes_free p (List.mem_of_mem_dropLast h3)
        · rcases List.mem_cons.mp h3 with h4 | h4
          · rw [h4]; exact hkvfree
          · cases h4
      · rcases List.mem_cons.mp h2 with h4 | h4
        · rw [h4]; intro hx; cases hx
        · cases h4
    rw [if_pos (List.getLast?_concat _), List.dropLast_concat, if_pos hlast]
  · have hfl : fileLines content = splitNL content := by
      unfold fileLines dropTrailingEmpty
      rw [if_neg hlast]
    have hfind_es : firstMatchIdx key (splitNL content) = none := by
      rw [← hfl]; exact hfind
    have hrep := (replaceFirst_none_iff key value _).mpr hfind_es
    have hg := List.getLast?_eq_getLast (splitNL content) hes_ne
    have hgne : (splitNL content).getLast hes_ne ≠ [] := by
      intro hnil
      apply hlast
      rw [hg, hnil]
    rcases joinNL_getLast_ne_nl _ hes_free _ hg hgne with ⟨c, hc2, hcne⟩
    have hcend : content.getLast? = some c := by
      rw [← hcontent]; exact hc2
    have hcnot : ¬ content.getLast? = some '\n' := by
      rw [hcend]
      intro hx
      exact hcne ((Option.some.injEq _ _).mp hx)
    have hres : envWriteCore key value content =
        (content ++ ['\n']) ++ key ++ '=' :: value ++ ['\n'] := by
      unfold envWriteCore
      rw [hrep]
      unfold ensureNL
      rw [if_neg hcnot]
    have htarget : (content ++ ['\n']) ++ key ++ '=' :: value ++ ['\n'] =
        joinNL ((splitNL content ++ [kvLine key value]) ++ [[]]) := by
      rw [joinNL_append_single _ _
        (by simp [hes_ne] : splitNL content ++ [kvLine key value] ≠ [])]
      rw [joinNL_append_single _ _ hes_ne, hcontent]
      simp [kvLine, List.append_assoc]
    rw [hres, htarget]
    unfold fileLines dropTrailingEmpty
    rw [splitNL_joinNL _ (by simp) ?hfr2]
    case hfr2 =>
      intro p hp
      rcases List.mem_append.mp hp with h2 | h2
      · rcases List.mem_append.mp h2 with h3 | h3
        · exact hes_free p h3
        · rcases List.mem_cons.mp h3 with h4 | h4
          · rw [h4]; exact hkvfree
          · cases h4
      · rcases List.mem_cons.mp h2 with h4 | h4
        · rw [h4]; intro hx; cases hx
        · cases h4
    rw [if_pos (List.getLast?_concat _), List.dropLast_concat, if_neg hlast]

/-- The env.write result always ends with a newline. -/
theorem envWriteCore_endsNL (key value content : List Char) :
    (envWriteCore key value content).getLast? = some '\n' := by
  unfold envWriteCore
  cases hrep : replaceFirst key value (splitNL content) with
  | some ps => exact ensureNL_ends _
  | none =>
    have he : ensureNL content ++ key ++ '=' :: value ++ ['\n'] =
        (ensureNL content ++ key ++ '=' :: value) ++ ['\n'] := by
      simp [List.append_assoc]
    rw [he]
    exact List.getLast?_concat _

/-- C2 amended: env.write on an existing non-empty target file produces a
newline-terminated file whose lines are the original ones, with the first
line starting with the key followed by an equals sign or a space replaced
in place by key=value; when no line matches, exactly one key=value line
is appended after the original lines.  (The original claim fails only for
an existing empty file, where an extra blank line precedes the appended
entry.) -/
theorem envWrite_line_semantics (key value content : String)
    (hk : ('\n' : Char) ∉ key.data) (hv : ('\n' : Char) ∉ value.data)
    (hc : content ≠ "") :
    (envWriteExisting key value content).data.getLast? = some '\n' ∧
    ((∃ i, firstMatchIdx key.data (fileLines content.data) = some i ∧
        fileLines (envWriteExisting key value content).data =
          (fileLines content.data).set i (kvLine key.data value.data)) ∨
      (firstMatchIdx key.data (fileLines content.data) = none ∧
        fileLines (envWriteExisting key value content).data =
          fileLines content.data ++ [kvLine key.data value.data])) := by
  have hcd : content.data ≠ [] := by
    intro hd
    apply hc
    cases content
    simp_all
  have hdata : (envWriteExisting key value content).data =
      envWriteCore key.data value.data content.data := rfl
  refine ⟨by rw [hdata]; exact envWriteCore_endsNL _ _ _, ?_⟩
  cases hfm : firstMatchIdx key.data (fileLines content.data) with
  | some i =>
    left
    exact ⟨i, rfl, by
      rw [hdata]
      exact envWriteCore_lines_replace key.data value.data content.data hk hv hcd i hfm⟩
  | none =>
    right
    exact ⟨rfl, by
      rw [hdata]
      exact envWriteCore_lines_append key.data value.data content.data hk hv hcd hfm⟩

/-- C2 counterexample: on an existing but empty target file the claim
fails: the code first newline-terminates the empty content and so
produces a leading blank line, instead of appending exactly one key=value
line after the (empty) prior content. -/
theorem envWrite_empty_file_extra_blank_line :
    envWriteExisting "K" "V" "" = "\nK=V\n" ∧
    ("\nK=V\n" : String) ≠ "K=V\n" ∧
    fileLines ("" : String).data = [] ∧
    fileLines ("\nK=V\n" : String).data = [[], ['K', '=', 'V']] := by
  refine ⟨by decide, by decide, by decide, by decide⟩

/-- C2 witness: writing a fresh key into a one-line file appends it. -/
theorem envWrite_line_semantics_witness :
    (('\n' : Char) ∉ ("DB_DATABASE" : String).data) ∧
    (('\n' : Char) ∉ ("myapp_swift_runner" : String).data) ∧
    ("APP_NAME=myapp\n" : String) ≠ "" ∧
    ((envWriteExisting "DB_DATABASE" "myapp_swift_runner" "APP_NAME=myapp\n").data.getLast? =
        some '\n' ∧
      ((∃ i, firstMatchIdx ("DB_DATABASE" : String).data
            (fileLines ("APP_NAME=myapp\n" : String).data) = some i ∧
          fileLines (envWriteExisting "DB_DATABASE" "myapp_swift_runner"
              "APP_NAME=myapp\n").data =
            (fileLines ("APP_NAME=myapp\n" : String).data).set i
              (kvLine ("DB_DATABASE" : String).data ("myapp_swift_runner" : String).data)) ∨
        (firstMatchIdx ("DB_DATABASE" : String).data
            (fileLines ("APP_NAME=myapp\n" : String).data) = none ∧
          fileLines (envWriteExisting "DB_DATABASE" "myapp_swift_runner"
              "APP_NAME=myapp\n").data =
            fileLines ("APP_NAME=myapp\n" : String).data ++
              [kvLine ("DB_DATABASE" : String).data ("myapp_swift_runner" : String).data]))) :=
  ⟨by decide, by decide, by decide,
    envWrite_line_semantics "DB_DATABASE" "myapp_swift_runner" "APP_NAME=myapp\n"
      (by decide) (by decide) (by decide)⟩

/-! ## env.copy lemmas -/

/-- Unpack the well-formed key predicate. -/
theorem plainKey_split (k : List Char) (h : plainKey k = true) :
    ('=' : Char) ∉ k ∧ (' ' : Char) ∉ k ∧ ('\n' : Char) ∉ k := by
  simp only [plainKey, noNL, Bool.and_eq_true, Bool.not_eq_true'] at h
  obtain ⟨⟨h1, h2⟩, h3⟩ := h
  refine ⟨?_, ?_, ?_⟩ <;> simp_all

/-- A newline-free check unpacks to non-membership. -/
theorem noNL_not_mem (l : List Char) (h : noNL l = true) : ('\n' : Char) ∉ l := by
  simp only [noNL, Bool.not_eq_true'] at h
  simp_all

/-- Key equality is forced when one well-formed key extended by an equals
sign or a space is a prefix of another well-formed key's written line. -/
theorem plainPrefixKeyEq : ∀ (k2 k v : List Char) (c : Char),
    ('=' : Char) ∉ k2 → (' ' : Char) ∉ k2 → ('=' : Char) ∉ k → (' ' : Char) ∉ k →
    (c = '=' ∨ c = ' ') → (k2 ++ [c]) <+: (k ++ '=' :: v) → k2 = k := by
  intro k2
  induction k2 with
  | nil =>
    intro k v c _ _ hek hsk hcv hpre
    cases k with
    | nil => rfl
    | cons a k =>
      exfalso
      rcases hpre with ⟨t, ht⟩
      have hca : c = a := by
        have h0 := congrArg (fun l => l.head?) ht
        simpa using h0
      rcases hcv with hcv | hcv
      · apply hek
        rw [← hca, hcv] at *
        exact List.mem_cons_self '=' k
      · apply hsk
        rw [← hca, hcv] at *
        exact List.mem_cons_self ' ' k
  | cons b k2 ih =>
    intro k v c he2 hs2 hek hsk hcv hpre
    cases k with
    | nil =>
      exfalso
      rcases hpre with ⟨t, ht⟩
      have hb : b = '=' := by
        have h0 := congrArg (fun l => l.head?) ht
        simpa using h0
      apply he2
      rw [hb] at *
      exact List.mem_cons_self '=' k2
    | cons a k =>
      rcases hpre with ⟨t, ht⟩
      have h1 : b = a := by
        have h0 := congrArg (fun l => l.head?) ht
        simpa using h0
      have h2 : (k2 ++ [c]) <+: (k ++ '=' :: v) := by
        refine ⟨t, ?_⟩
        have h0 := congrArg (fun l => l.tail) ht
        simpa using h0
      rw [h1]
      rw [ih k v c (fun h => he2 (List.mem_cons_of_mem b h))
        (fun h => hs2 (List.mem_cons_of_mem b h))
        (fun h => hek (List.mem_cons_of_mem a h))
        (fun h => hsk (List.mem_cons_of_mem a h)) hcv h2]

/-- The written line of one well-formed key never matches a different
well-formed key. -/
theorem matchesKey_kvLine_false (k2 k v : List Char)
    (hk : plainKey k = true) (hk2 : plainKey k2 = true) (hne : k2 ≠ k) :
    matchesKey k2 (kvLine k v) = false := by
  obtain ⟨hek, hsk, _⟩ := plainKey_split k hk
  obtain ⟨he2, hs2, _⟩ := plainKey_split k2 hk2
  unfold matchesKey
  rw [Bool.or_eq_false_iff]
  constructor
  · cases hp : (k2 ++ ['=']).isPrefixOf (kvLine k v) with
    | false => rfl
    | true =>
      exfalso
      apply hne
      exact plainPrefixKeyEq k2 k v '=' he2 hs2 hek hsk (Or.inl rfl)
        ( List.isPrefixOf_iff_prefix.mp hp)
  · cases hp : (k2 ++ [' ']).isPrefixOf (kvLine k v) with
    | false => rfl
    | true =>
      exfalso
      apply hne
      exact plainPrefixKeyEq k2 k v ' ' he2 hs2 hek hsk (Or.inr rfl)
        ( List.isPrefixOf_iff_prefix.mp hp)

/-- The written line is among the lines after an env content update. -/
theorem kvLine_mem_updateEnvContent (k v c : List Char)
    (hk : ('\n' : Char) ∉ k) (hv : ('\n' : Char) ∉ v) :
    kvLine k v ∈ fileLines (updateEnvContent k v c) := by
  by_cases hc : c = []
  · subst hc
    unfold updateEnvContent
    rw [if_pos rfl]
    have he : k ++ '=' :: v ++ ['\n'] = joinNL [kvLine k v, []] := by
      show _ = kvLine k v ++ '\n' :: []
      simp [kvLine, List.append_assoc]
    rw [he]
    unfold fileLines dropTrailingEmpty
    rw [splitNL_joinNL _ (by simp) ?hf]
    case hf =>
      intro p hp
      rcases List.mem_cons.mp hp with h2 | h2
      · rw [h2]; exact kvLine_noNL k v hk hv
      · rcases List.mem_cons.mp h2 with h3 | h3
        · rw [h3]; intro hx; cases hx
        · cases h3
    simp
  · unfold updateEnvContent
    rw [if_neg hc]
    cases hfm : firstMatchIdx k (fileLines c) with
    | some i =>
      rw [envWriteCore_lines_replace k v c hk hv hc i hfm]
      have hiL : i < (fileLines c).length := firstMatchIdx_lt k _ i hfm
      have hget : ((fileLines c).set i (kvLine k v))[i]? = some (kvLine k v) :=
        List.getElem?_set_eq_of_lt _ hiL
      exact List.getElem?_mem hget
    | none =>
      rw [envWriteCore_lines_append k v c hk hv hc hfm]
      exact List.mem_append_right _ (List.mem_cons_self _ _)

/-- A line matching no update key survives an env content update. -/
theorem mem_updateEnvContent_of_not_match (k v c l : List Char)
    (hk : ('\n' : Char) ∉ k) (hv : ('\n' : Char) ∉ v)
    (hl : l ∈ fileLines c) (hnm : matchesKey k l = false) :
    l ∈ fileLines (updateEnvContent k v c) := by
  by_cases hc : c = []
  · subst hc
    have h0 : fileLines ([] : List Char) = [] := by decide
    rw [h0] at hl
    cases hl
  · unfold updateEnvContent
    rw [if_neg hc]
    cases hfm : firstMatchIdx k (fileLines c) with
    | some i =>
      rw [envWriteCore_lines_replace k v c hk hv hc i hfm]
      rcases firstMatchIdx_spec k _ i hfm with ⟨li, hli, hmi⟩
      rcases List.getElem_of_mem hl with ⟨j, hj, hlj⟩
      have hji : j ≠ i := by
        intro hEq
        subst hEq
        have hgj : (fileLines c)[j]? = some l := by
          rw [List.getElem?_eq_getElem hj, hlj]
        rw [hgj] at hli
        have hll : li = l := (Option.some.injEq _ _).mp hli.symm
        rw [hll] at hmi
        rw [hmi] at hnm
        cases hnm
      have hget : ((fileLines c).set i (kvLine k v))[j]? = some l := by
        rw [List.getElem?_set_ne (Ne.symm hji), List.getElem?_eq_getElem hj, hlj]
      exact List.getElem?_mem hget
    | none =>
      rw [envWriteCore_lines_append k v c hk hv hc hfm]
      exact List.mem_append_left _ hl

/-- A line matching none of the remaining keys survives the whole copy
loop. -/
theorem envCopyCollect_preserves (src : List (List Char × List Char)) :
    ∀ (ks : List (List Char)) (c l : List Char),
    (∀ k2 ∈ ks, plainKey k2 = true) →
    (∀ k2 ∈ ks, (lookupEnv src k2).all noNL = true) →
    (∀ k2 ∈ ks, matchesKey k2 l = false) →
    l ∈ fileLines c → l ∈ fileLines (envCopyCollect src ks c) := by
  intro ks
  induction ks with
  | nil => intro c l _ _ _ hl; exact hl
  | cons k0 ks ih =>
    intro c l hplain hvals hnm hl
    have hstep : envCopyCollect src (k0 :: ks) c =
        envCopyCollect src ks
          (match lookupEnv src k0 with
           | some v => updateEnvContent k0 v c
           | none => c) := by
      unfold envCopyCollect
      rw [List.foldl_cons]
    rw [hstep]
    cases hlk : lookupEnv src k0 with
    | none =>
      exact ih c l (fun x hx => hplain x (List.mem_cons_of_mem k0 hx))
        (fun x hx => hvals x (List.mem_cons_of_mem k0 hx))
        (fun x hx => hnm x (List.mem_cons_of_mem k0 hx)) hl
    | some v =>
      have hvnl : noNL v = true := by
        have hall := hvals k0 (List.mem_cons_self k0 ks)
        rw [hlk] at hall
        simpa [Option.all] using hall
      have hk0 := plainKey_split k0 (hplain k0 (List.mem_cons_self k0 ks))
      have hl2 : l ∈ fileLines (updateEnvContent k0 v c) :=
        mem_updateEnvContent_of_not_match k0 v c l hk0.2.2 (noNL_not_mem v hvnl) hl
          (hnm k0 (List.mem_cons_self k0 ks))
      exact ih _ l (fun x hx => hplain x (List.mem_cons_of_mem k0 hx))
        (fun x hx => hvals x (List.mem_cons_of_mem k0 hx))
        (fun x hx => hnm x (List.mem_cons_of_mem k0 hx)) hl2

/-- Every requested key's line is present after the copy loop. -/
theorem kvLine_mem_envCopyCollect (src : List (List Char × List Char)) :
    ∀ (keys : List (List Char)) (target : List Char),
    (∀ k ∈ keys, plainKey k = true) →
    keys.Nodup →
    (∀ k ∈ keys, (lookupEnv src k).all noNL = true) →
    ∀ k ∈ keys, ∀ v, lookupEnv src k = some v →
      kvLine k v ∈ fileLines (envCopyCollect src keys target) := by
  intro keys
  induction keys with
  | nil => intro target _ _ _ k hk; cases hk
  | cons k0 ks ih =>
    intro target hplain hnodup hvals k hkmem v hlk
    have hstep : envCopyCollect src (k0 :: ks) target =
        envCopyCollect src ks
          (match lookupEnv src k0 with
           | some v => updateEnvContent k0 v target
           | none => target) := by
      unfold envCopyCollect
      rw [List.foldl_cons]
    rw [hstep]
    rcases List.mem_cons.mp hkmem with hk0 | hks
    · subst hk0
      rw [hlk]
      have hksplit := plainKey_split k (hplain k (List.mem_cons_self k ks))
      have hvnl : noNL v = true := by
        have hall := hvals k (List.mem_cons_self k ks)
        rw [hlk] at hall
        simpa [Option.all] using hall
      have h1 : kvLine k v ∈ fileLines (updateEnvContent k v target) :=
        kvLine_mem_updateEnvContent k v target hksplit.2.2 (noNL_not_mem v hvnl)
      apply envCopyCollect_preserves src ks _ _
        (fun x hx => hplain x (List.mem_cons_of_mem k hx))
        (fun x hx => hvals x (List.mem_cons_of_mem k hx)) ?nm h1
      case nm =>
        intro k2 hk2
        apply matchesKey_kvLine_false k2 k v (hplain k (List.mem_cons_self k ks))
          (hplain k2 (List.mem_cons_of_mem k hk2))
        intro hEq
        subst hEq
        exact (List.nodup_cons.mp hnodup).1 hk2
    · cases hlk0 : lookupEnv src k0 with
      | none =>
        exact ih target (fun x hx => hplain x (List.mem_cons_of_mem k0 hx))
          (List.nodup_cons.mp hnodup).2
          (fun x hx => hvals x (List.mem_cons_of_mem k0 hx)) k hks v hlk
      | some v0 =>
        exact ih (updateEnvContent k0 v0 target)
          (fun x hx => hplain x (List.mem_cons_of_mem k0 hx))
          (List.nodup_cons.mp hnodup).2
          (fun x hx => hvals x (List.mem_cons_of_mem k0 hx)) k hks v hlk

/-- C4: env.copy is all-or-nothing.  When any requested key is absent
from the source, the step fails with the error listing the missing keys
in request order and the target content is unchanged; otherwise the run
succeeds and every requested key's key=value line, with its source value,
is present in the resulting target file. -/
theorem envCopy_all_or_nothing (src : List (List Char × List Char))
    (keys : List (List Char)) (target : List Char)
    (hplain : ∀ k ∈ keys, plainKey k = true)
    (hnodup : keys.Nodup)
    (hvals : ∀ k ∈ keys, (lookupEnv src k).all noNL = true) :
    (missingKeys src keys ≠ [] →
      envCopyRun src keys target =
        .error (("keys not found in source: ").data ++
          joinCommaSp (missingKeys src keys)) ∧
      envCopyTargetAfter src keys target = target) ∧
    (missingKeys src keys = [] →
      envCopyRun src keys target = .ok (envCopyCollect src keys target) ∧
      ∀ k ∈ keys, ∀ v, lookupEnv src k = some v →
        kvLine k v ∈ fileLines (envCopyTargetAfter src keys target)) := by
  constructor
  · intro hmiss
    have h1 : envCopyRun src keys target =
        .error (("keys not found in source: ").data ++
          joinCommaSp (missingKeys src keys)) := by
      unfold envCopyRun
      rw [if_neg hmiss]
    refine ⟨h1, ?_⟩
    unfold envCopyTargetAfter
    rw [h1]
  · intro hmiss
    have h1 : envCopyRun src keys target = .ok (envCopyCollect src keys target) := by
      unfold envCopyRun
      rw [if_pos hmiss]
    refine ⟨h1, ?_⟩
    have h2 : envCopyTargetAfter src keys target = envCopyCollect src keys target := by
      unfold envCopyTargetAfter
      rw [h1]
    rw [h2]
    exact fun k hk v hv =>
      kvLine_mem_envCopyCollect src keys target hplain hnodup hvals k hk v hv

/-- C4 witness: copying one present key into a one-line target. -/
theorem envCopy_all_or_nothing_witness :
    (∀ k ∈ [("API_KEY" : String).data], plainKey k = true) ∧
    ([("API_KEY" : String).data]).Nodup ∧
    (∀ k ∈ [("API_KEY" : String).data],
      (lookupEnv [(("API_KEY" : String).data, ("secret123" : String).data)] k).all noNL =
        true) ∧
    ((missingKeys [(("API_KEY" : String).data, ("secret123" : String).data)]
          [("API_KEY" : String).data] ≠ [] →
        envCopyRun [(("API_KEY" : String).data, ("secret123" : String).data)]
            [("API_KEY" : String).data] ("APP_NAME=myapp\n" : String).data =
          .error (("keys not found in source: ").data ++
            joinCommaSp (missingKeys
              [(("API_KEY" : String).data, ("secret123" : String).data)]
              [("API_KEY" : String).data])) ∧
        envCopyTargetAfter [(("API_KEY" : String).data, ("secret123" : String).data)]
            [("API_KEY" : String).data] ("APP_NAME=myapp\n" : String).data =
          ("APP_NAME=myapp\n" : String).data) ∧
      (missingKeys [(("API_KEY" : String).data, ("secret123" : String).data)]
          [("API_KEY" : String).data] = [] →
        envCopyRun [(("API_KEY" : String).data, ("secret123" : String).data)]
            [("API_KEY" : String).data] ("APP_NAME=myapp\n" : String).data =
          .ok (envCopyCollect [(("API_KEY" : String).data, ("secret123" : String).data)]
            [("API_KEY" : String).data] ("APP_NAME=myapp\n" : String).data) ∧
        ∀ k ∈ [("API_KEY" : String).data], ∀ v,
          lookupEnv [(("API_KEY" : String).data, ("secret123" : String).data)] k = some v →
          kvLine k v ∈ fileLines (envCopyTargetAfter
            [(("API_KEY" : String).data, ("secret123" : String).data)]
            [("API_KEY" : String).data] ("APP_NAME=myapp\n" : String).data))) :=
  ⟨by decide, by decide, by decide,
    envCopy_all_or_nothing [(("API_KEY" : String).data, ("secret123" : String).data)]
      [("API_KEY" : String).data] ("APP_NAME=myapp\n" : String).data
      (by decide) (by decide) (by decide)⟩

end Anvil
